import Mathlib

/-!
Shallow embedding of `BayesTreeCliqueBase-inst.h` (GTSAM clique-recursion
engine): the clique data model, the tree-walk utilities `treeSize` and
`numCachedSeparatorMarginals`, cache invalidation `deleteCachedShortcuts`,
local operations `equals` and `print`, and the memoized recursive
`separatorMarginal` query.

Modelling conventions:
* variable identifiers (`Key`) are naturals;
* the external conditional capability is a record of frontal keys, parent
  (separator) keys and an opaque numerical payload; its `toFactor`
  conversion produces a factor over all its keys;
* the external elimination capability is an abstract function parameter
  (`elimFn`), matching the `Eliminate function` argument of the C++ code;
  the index-reduce/solve/unreduce block of the source is a single
  invocation of that capability (the spec requires the renumbering to be a
  net identity);
* fallible C++ operations (null-pointer dereferences, which are undefined
  behavior in the source) are modelled with `Except CErr`, where
  `CErr.nullDeref` marks a dereference of a null pointer.  The constructor
  `CErr.malformedTree` is the descriptive structural error the spec's
  error-handling section calls for; the code never raises it, and it is
  declared here only so that the spec-level statement is expressible.
-/

abbrev Key := Nat

/-- The external conditional capability P(frontals | separator): ordered
frontal keys, ordered parent (separator) keys, and an opaque payload
standing for the numerical content. -/
structure Conditional where
  frontals : List Key
  parents : List Key
  payload : Nat
deriving DecidableEq

/-- A generic factor, as produced by `Conditional.toFactor` and consumed by
the elimination capability: the keys it involves plus opaque payload. -/
structure Factor where
  keys : List Key
  payload : Nat
deriving DecidableEq

/-- `conditional_->toFactor()`: converts the conditional to a generic
factor over all of its variables. -/
def Conditional.toFactor (c : Conditional) : Factor :=
  ⟨c.frontals ++ c.parents, c.payload⟩

/-- Error outcomes of the embedded C++ operations.  `nullDeref` models a
dereference of a null pointer (undefined behavior in the source);
`malformedTree` is the descriptive structural-inconsistency error the spec
demands for a non-root clique with an absent parent — the code never
produces it. -/
inductive CErr where
  | nullDeref
  | malformedTree
deriving DecidableEq

/-- A clique of the Bayes tree, child-ownership view: the (possibly null)
conditional pointer `conditional_`, the optional cached separator marginal
`cachedSeparatorMarginal_` (a factor collection), and the owned list of
children.  The non-owning parent pointer is not part of the ownership tree;
the operations that follow it are modelled on ancestor chains below. -/
inductive Clique : Type where
  | mk : Option Conditional → Option (List Factor) → List Clique → Clique

/-- The `conditional_` field. -/
def Clique.conditionalOf : Clique → Option Conditional
  | .mk c _ _ => c

/-- The `cachedSeparatorMarginal_` field. -/
def Clique.cacheOf : Clique → Option (List Factor)
  | .mk _ m _ => m

/-- The `children` field. -/
def Clique.childrenOf : Clique → List Clique
  | .mk _ _ cs => cs

mutual

/-- `treeSize()`: `size_t size = 1; BOOST_FOREACH(child, children) size +=
child->treeSize(); return size;` — an accumulating loop over the children,
embedded with the accumulator made explicit. -/
def Clique.treeSize : Clique → Nat
  | .mk _ _ cs => Clique.treeSizeLoop 1 cs

/-- The `BOOST_FOREACH` accumulation loop of `treeSize`. -/
def Clique.treeSizeLoop : Nat → List Clique → Nat
  | acc, [] => acc
  | acc, c :: cs => Clique.treeSizeLoop (acc + c.treeSize) cs

end

mutual

/-- `numCachedSeparatorMarginals()`: returns 0 at once if
`cachedSeparatorMarginal_` is absent; otherwise `subtree_count = 1` plus an
unconditional `BOOST_FOREACH` loop over all children. -/
def Clique.numCachedSeparatorMarginals : Clique → Nat
  | .mk _ none _ => 0
  | .mk _ (some _) cs => Clique.numCachedLoop 1 cs

/-- The `BOOST_FOREACH` accumulation loop of `numCachedSeparatorMarginals`. -/
def Clique.numCachedLoop : Nat → List Clique → Nat
  | acc, [] => acc
  | acc, c :: cs => Clique.numCachedLoop (acc + c.numCachedSeparatorMarginals) cs

end

mutual

/-- `deleteCachedShortcuts()`: if `cachedSeparatorMarginal_` is absent the
body is skipped entirely (children are not visited); otherwise every child
is recursed into and then this clique's cache is set to `boost::none`. -/
def Clique.deleteCachedShortcuts : Clique → Clique
  | .mk cond none cs => .mk cond none cs
  | .mk cond (some _) cs => .mk cond none (Clique.deleteList cs)

/-- The `BOOST_FOREACH` recursion over children in `deleteCachedShortcuts`. -/
def Clique.deleteList : List Clique → List Clique
  | [] => []
  | c :: cs => c.deleteCachedShortcuts :: Clique.deleteList cs

end

mutual

/-- Every cache in the subtree is absent (used to state cache-invalidation
correctness). -/
def Clique.allCachesAbsent : Clique → Bool
  | .mk _ m cs => m.isNone && Clique.allCachesAbsentList cs

def Clique.allCachesAbsentList : List Clique → Bool
  | [] => true
  | c :: cs => c.allCachesAbsent && Clique.allCachesAbsentList cs

end

mutual

/-- The reachable-state invariant of caches: the separator-marginal query
populates caches only along root-ward paths, so a clique whose cache is
absent has no populated cache anywhere below it. -/
def Clique.cacheClosed : Clique → Bool
  | .mk _ none cs => Clique.allCachesAbsentList cs
  | .mk _ (some _) cs => Clique.cacheClosedList cs

def Clique.cacheClosedList : List Clique → Bool
  | [] => true
  | c :: cs => c.cacheClosed && Clique.cacheClosedList cs

end

mutual

/-- Erase every cache in the subtree, leaving all other fields intact:
the observation used to state the frame property of
`deleteCachedShortcuts`. -/
def Clique.eraseCaches : Clique → Clique
  | .mk cond _ cs => .mk cond none (Clique.eraseCachesList cs)

def Clique.eraseCachesList : List Clique → List Clique
  | [] => []
  | c :: cs => c.eraseCaches :: Clique.eraseCachesList cs

end

/-- `equals(other, tol)`: the C++ body is
`(!conditional_ && !other.conditional()) || conditional_->equals(*other.conditional(), tol)`
with short-circuit evaluation.  When both conditionals are null the first
disjunct is true and the second is never evaluated; otherwise the second
disjunct runs, dereferencing `conditional_` and `*other.conditional()` —
when either of those is null this is a null dereference (undefined
behavior), modelled as `CErr.nullDeref`.  The conditional capability's
tolerance comparison is the abstract parameter `condEq`. -/
def cliqueEquals (condEq : Conditional → Conditional → ℚ → Bool)
    (a b : Clique) (tol : ℚ) : Except CErr Bool :=
  match a.conditionalOf, b.conditionalOf with
  | none, none => .ok true
  | some ca, some cb => .ok (condEq ca cb tol)
  | _, _ => .error .nullDeref

/-- `print(s, keyFormatter)`: the C++ body is
`conditional_->print(s, keyFormatter);` — an unconditional dereference of
the conditional pointer with no error branch.  The conditional
capability's printing is the abstract parameter `condPrint`, its produced
diagnostic text is the returned string; a null `conditional_` is a null
dereference. -/
def cliquePrint (condPrint : Conditional → String → (Key → String) → String)
    (t : Clique) (s : String) (fmt : Key → String) : Except CErr String :=
  match t.conditionalOf with
  | none => .error .nullDeref
  | some c => .ok (condPrint c s fmt)

/-- Parent-chain view of a clique, used by `separatorMarginal`, which walks
the non-owning `parent_` pointers root-ward.  `isR` models the pointer
comparison `R.get() == this` with the reference clique of the query. -/
structure SMNode where
  conditional : Option Conditional
  cache : Option (List Factor)
  isR : Bool
deriving DecidableEq

/-- `separatorMarginal(R, function)`, embedded over the ancestor chain of
the queried clique: the list holds the clique itself first, then its
parent, grandparent, … as far as the `parent_` pointers reach (an exhausted
chain models a null `parent_.lock()`).  Returns the factor collection, the
updated chain (caches are the only mutable state), and the number of
invocations of the elimination capability.  Following the source:
1. if `cachedSeparatorMarginal_` is present, return it (cache hit);
2. else if `R.get() == this`, store and return the empty collection;
3. else recurse into the parent (dereferencing a null parent is
   `CErr.nullDeref`), append `parent->conditional()->toFactor()`, and
   marginalize onto this clique's separator keys
   (`this->conditional()`'s parents) with one call of the elimination
   capability; the reduce/unreduce renumbering of the source is a net
   identity and is folded into that call.  The result is stored in
   `cachedSeparatorMarginal_` before being returned. -/
def sepMarginal (elimFn : List Factor → List Key → List Factor) :
    List SMNode → Except CErr (List Factor × List SMNode × Nat)
  | [] => .error .nullDeref
  | c :: rest =>
    match c.cache with
    | some v => .ok (v, c :: rest, 0)
    | none =>
      if c.isR then
        .ok ([], { c with cache := some [] } :: rest, 0)
      else
        match sepMarginal elimFn rest with
        | .error e => .error e
        | .ok (pS, rest', n) =>
          match rest' with
          | [] => .error .nullDeref
          | p :: rest'' =>
            match p.conditional, c.conditional with
            | some pc, some cc =>
              let m := elimFn (pS ++ [pc.toFactor]) cc.parents
              .ok (m, { c with cache := some m } :: p :: rest'', n + 1)
            | _, _ => .error .nullDeref

/-- The reachable-state invariant on an ancestor chain: the query populates
caches only along contiguous root-ward paths, so a populated cache at a
node means every node above it (in the listed segment) is populated too. -/
def chainClosed : List SMNode → Bool
  | [] => true
  | c :: rest => (c.cache.isNone || rest.all fun n => n.cache.isSome) && chainClosed rest

/-! ## Helper lemmas for the tree-walk operations -/

theorem Clique.treeSizeLoop_eq_sum (cs : List Clique) :
    ∀ acc : Nat, Clique.treeSizeLoop acc cs = acc + (cs.map Clique.treeSize).sum := by
  induction cs with
  | nil => intro acc; simp [Clique.treeSizeLoop]
  | cons c cs ih =>
    intro acc
    simp [Clique.treeSizeLoop, ih]
    omega

theorem Clique.numCachedLoop_eq_sum (cs : List Clique) :
    ∀ acc : Nat, Clique.numCachedLoop acc cs =
      acc + (cs.map Clique.numCachedSeparatorMarginals).sum := by
  induction cs with
  | nil => intro acc; simp [Clique.numCachedLoop]
  | cons c cs ih =>
    intro acc
    simp [Clique.numCachedLoop, ih]
    omega

theorem Clique.deleteList_eq_map (cs : List Clique) :
    Clique.deleteList cs = cs.map Clique.deleteCachedShortcuts := by
  induction cs with
  | nil => simp [Clique.deleteList]
  | cons c cs ih => simp [Clique.deleteList, ih]

theorem Clique.delete_numCached (t : Clique) :
    (t.deleteCachedShortcuts).numCachedSeparatorMarginals = 0 := by
  cases t with
  | mk cond cache cs =>
    cases cache <;> simp [Clique.deleteCachedShortcuts, Clique.numCachedSeparatorMarginals]

mutual

theorem Clique.delete_allAbsent (t : Clique) (h : t.cacheClosed = true) :
    (t.deleteCachedShortcuts).allCachesAbsent = true := by
  cases t with
  | mk cond cache cs =>
    cases cache with
    | none =>
      simp [Clique.cacheClosed] at h
      simp [Clique.deleteCachedShortcuts, Clique.allCachesAbsent, h]
    | some m =>
      simp [Clique.cacheClosed] at h
      simp [Clique.deleteCachedShortcuts, Clique.allCachesAbsent]
      exact Clique.delete_allAbsent_list cs h

theorem Clique.delete_allAbsent_list (cs : List Clique)
    (h : Clique.cacheClosedList cs = true) :
    Clique.allCachesAbsentList (Clique.deleteList cs) = true := by
  cases cs with
  | nil => simp [Clique.deleteList, Clique.allCachesAbsentList]
  | cons c cs =>
    simp [Clique.cacheClosedList] at h
    simp [Clique.deleteList, Clique.allCachesAbsentList]
    exact ⟨Clique.delete_allAbsent c h.1, Clique.delete_allAbsent_list cs h.2⟩

end

mutual

theorem Clique.erase_delete (t : Clique) :
    (t.deleteCachedShortcuts).eraseCaches = t.eraseCaches := by
  cases t with
  | mk cond cache cs =>
    cases cache with
    | none => simp [Clique.deleteCachedShortcuts]
    | some m =>
      simp [Clique.deleteCachedShortcuts, Clique.eraseCaches]
      exact Clique.erase_delete_list cs

theorem Clique.erase_delete_list (cs : List Clique) :
    Clique.eraseCachesList (Clique.deleteList cs) = Clique.eraseCachesList cs := by
  cases cs with
  | nil => simp [Clique.deleteList]
  | cons c cs =>
    simp [Clique.deleteList, Clique.eraseCachesList]
    exact ⟨Clique.erase_delete c, Clique.erase_delete_list cs⟩

end

mutual

theorem Clique.treeSize_delete (t : Clique) :
    (t.deleteCachedShortcuts).treeSize = t.treeSize := by
  cases t with
  | mk cond cache cs =>
    cases cache with
    | none => simp [Clique.deleteCachedShortcuts]
    | some m =>
      simp [Clique.deleteCachedShortcuts, Clique.treeSize]
      exact Clique.treeSize_delete_list cs 1

theorem Clique.treeSize_delete_list (cs : List Clique) (acc : Nat) :
    Clique.treeSizeLoop acc (Clique.deleteList cs) = Clique.treeSizeLoop acc cs := by
  cases cs with
  | nil => simp [Clique.deleteList]
  | cons c cs =>
    simp [Clique.deleteList, Clique.treeSizeLoop, Clique.treeSize_delete c]
    exact Clique.treeSize_delete_list cs (acc + c.treeSize)

end

/-! ## Claim theorems for the tree-walk operations -/

/-- C8: `treeSize` of any clique equals 1 plus the sum of `treeSize` over
all of its children, and `treeSize` of a leaf (no children) equals 1. -/
theorem treeSize_one_plus_children (cond : Option Conditional)
    (cache : Option (List Factor)) (cs : List Clique) :
    Clique.treeSize (.mk cond cache cs) = 1 + (cs.map Clique.treeSize).sum
      ∧ Clique.treeSize (.mk cond cache []) = 1 := by
  constructor
  · simp [Clique.treeSize, Clique.treeSizeLoop_eq_sum]
  · simp [Clique.treeSize, Clique.treeSizeLoop]

/-- C5: `numCachedSeparatorMarginals` returns 0 immediately when the
clique's own cache is absent — for every children list, including children
with populated caches — and otherwise returns 1 plus the sum of the same
call over all children, every child being visited via the unconditional
loop. -/
theorem numCached_zero_or_one_plus_children (cond : Option Conditional)
    (cs : List Clique) :
    Clique.numCachedSeparatorMarginals (.mk cond none cs) = 0
      ∧ ∀ m : List Factor, Clique.numCachedSeparatorMarginals (.mk cond (some m) cs)
          = 1 + (cs.map Clique.numCachedSeparatorMarginals).sum := by
  constructor
  · simp [Clique.numCachedSeparatorMarginals]
  · intro m
    simp [Clique.numCachedSeparatorMarginals, Clique.numCachedLoop_eq_sum]

/-- C4: `deleteCachedShortcuts` leaves `numCachedSeparatorMarginals` at 0;
it is the identity (children unvisited) when the clique's cache is absent;
when the cache is present it recurses into every child and clears its own
cache; and under the reachable-state closure invariant every previously
populated descendant cache is absent afterwards. -/
theorem deleteCachedShortcuts_correct (t : Clique) (cond : Option Conditional)
    (m : List Factor) (cs : List Clique) :
    (t.deleteCachedShortcuts).numCachedSeparatorMarginals = 0
    ∧ (t.cacheOf = none → t.deleteCachedShortcuts = t)
    ∧ Clique.deleteCachedShortcuts (.mk cond (some m) cs)
        = .mk cond none (cs.map Clique.deleteCachedShortcuts)
    ∧ (t.cacheClosed = true → (t.deleteCachedShortcuts).allCachesAbsent = true) := by
  refine ⟨Clique.delete_numCached t, ?_, ?_, Clique.delete_allAbsent t⟩
  · intro h
    cases t with
    | mk cond' cache' cs' =>
      cases cache' with
      | none => rfl
      | some m' => simp [Clique.cacheOf] at h
  · simp [Clique.deleteCachedShortcuts, Clique.deleteList_eq_map]

/-- Witness for C4 at concrete cliques: a two-node chain with both caches
populated is fully cleared, and a cache-less clique is untouched. -/
theorem deleteCachedShortcuts_correct_witness :
    (Clique.deleteCachedShortcuts
        (.mk none (some []) [.mk none (some []) []])).allCachesAbsent = true
    ∧ Clique.deleteCachedShortcuts (.mk none none [.mk none (some []) []])
        = .mk none none [.mk none (some []) []] :=
  ⟨(deleteCachedShortcuts_correct (.mk none (some []) [.mk none (some []) []])
      none [] []).2.2.2 (by decide),
   (deleteCachedShortcuts_correct (.mk none none [.mk none (some []) []])
      none [] []).2.1 rfl⟩

/-- C9: frame property — `deleteCachedShortcuts` changes nothing outside
the `cachedSeparatorMarginal` fields of the subtree: the cache-erased
views of the tree before and after agree, the tree size is unchanged, and
the clique's conditional and number of children are unchanged.
(`treeSize` and `numCachedSeparatorMarginals` are `const` in the source
and are embedded as pure functions: they return a count and no modified
tree.) -/
theorem delete_frame_property (t : Clique) :
    (t.deleteCachedShortcuts).eraseCaches = t.eraseCaches
    ∧ (t.deleteCachedShortcuts).treeSize = t.treeSize
    ∧ (t.deleteCachedShortcuts).conditionalOf = t.conditionalOf
    ∧ ((t.deleteCachedShortcuts).childrenOf).length = (t.childrenOf).length := by
  refine ⟨Clique.erase_delete t, Clique.treeSize_delete t, ?_, ?_⟩
  · cases t with
    | mk cond cache cs => cases cache <;> rfl
  · cases t with
    | mk cond cache cs =>
      cases cache with
      | none => rfl
      | some m => simp [Clique.deleteCachedShortcuts, Clique.childrenOf,
          Clique.deleteList_eq_map]

/-- C7 counterexample: when exactly one of the two cliques lacks a
conditional, `equals` does not return false — the C++ second disjunct
dereferences a null conditional pointer (undefined behavior), modelled as
`CErr.nullDeref`. -/
theorem equals_one_null_cex :
    cliqueEquals (fun _ _ _ => true) (.mk (some ⟨[0], [], 0⟩) none [])
        (.mk none none []) 0 ≠ Except.ok false
    ∧ cliqueEquals (fun _ _ _ => true) (.mk (some ⟨[0], [], 0⟩) none [])
        (.mk none none []) 0 = Except.error CErr.nullDeref := by
  constructor
  · intro h
    exact Except.noConfusion h
  · rfl

/-- C7 amended: `equals` returns true when both cliques lack a
conditional, returns the conditional capability's tolerance comparison when
both have one, and when exactly one of the two lacks a conditional it
dereferences a null conditional pointer (undefined behavior) instead of
returning false. -/
theorem equals_amended_thm (condEq : Conditional → Conditional → ℚ → Bool)
    (a b : Clique) (tol : ℚ) :
    (a.conditionalOf = none → b.conditionalOf = none →
        cliqueEquals condEq a b tol = .ok true)
    ∧ (∀ ca cb, a.conditionalOf = some ca → b.conditionalOf = some cb →
        cliqueEquals condEq a b tol = .ok (condEq ca cb tol))
    ∧ (a.conditionalOf.isSome ≠ b.conditionalOf.isSome →
        cliqueEquals condEq a b tol = .error .nullDeref) := by
  refine ⟨?_, ?_, ?_⟩
  · intro ha hb
    simp [cliqueEquals, ha, hb]
  · intro ca cb ha hb
    simp [cliqueEquals, ha, hb]
  · intro hne
    cases ha : a.conditionalOf <;> cases hb : b.conditionalOf <;>
      simp [ha, hb] at hne ⊢ <;> simp [cliqueEquals, ha, hb]

theorem equals_amended_witness :
    cliqueEquals (fun _ _ _ => true) (.mk none none []) (.mk none none []) 0 = .ok true
    ∧ cliqueEquals (fun _ _ _ => true) (.mk none none [])
        (.mk (some ⟨[0], [], 0⟩) none []) 0 = .error .nullDeref :=
  ⟨(equals_amended_thm (fun _ _ _ => true) (.mk none none []) (.mk none none []) 0).1
      rfl rfl,
   (equals_amended_thm (fun _ _ _ => true) (.mk none none [])
      (.mk (some ⟨[0], [], 0⟩) none []) 0).2.2 (by decide)⟩

/-- C10: `print` on a clique whose conditional is null unconditionally
dereferences the null conditional pointer — the operation has no error
branch for the conditional-less state — and on a well-formed clique it
delegates directly to the conditional capability's printing. -/
theorem print_thm (condPrint : Conditional → String → (Key → String) → String)
    (t : Clique) (s : String) (fmt : Key → String) :
    (t.conditionalOf = none → cliquePrint condPrint t s fmt = .error .nullDeref)
    ∧ (∀ c, t.conditionalOf = some c →
        cliquePrint condPrint t s fmt = .ok (condPrint c s fmt)) := by
  constructor
  · intro h
    simp [cliquePrint, h]
  · intro c h
    simp [cliquePrint, h]

theorem print_thm_witness :
    cliquePrint (fun _ s _ => s) (.mk none none []) "x" (fun _ => "") =
        .error .nullDeref
    ∧ cliquePrint (fun _ s _ => s) (.mk (some ⟨[0], [], 0⟩) none []) "x" (fun _ => "") =
        .ok "x" :=
  ⟨(print_thm (fun _ s _ => s) (.mk none none []) "x" (fun _ => "")).1 rfl,
   (print_thm (fun _ s _ => s) (.mk (some ⟨[0], [], 0⟩) none []) "x" (fun _ => "")).2
      ⟨[0], [], 0⟩ rfl⟩

theorem sepMarginal_cache_hit (elimFn : List Factor → List Key → List Factor)
    (c : SMNode) (rest : List SMNode) (v : List Factor) (h : c.cache = some v) :
    sepMarginal elimFn (c :: rest) = .ok (v, c :: rest, 0) := by
  simp [sepMarginal, h]

theorem sepMarginal_head_cache (elimFn : List Factor → List Key → List Factor) :
    ∀ (chain : List SMNode) (v : List Factor) (chain' : List SMNode) (n : Nat),
      sepMarginal elimFn chain = .ok (v, chain', n) →
      ∃ c' rest', chain' = c' :: rest' ∧ c'.cache = some v := by
  intro chain v chain' n h
  match chain with
  | [] => simp [sepMarginal] at h
  | c :: rest =>
    match hc : c.cache with
    | some w =>
      simp [sepMarginal, hc] at h
      exact ⟨c, rest, by simp [← h.2.1], by simp [hc, h.1]⟩
    | none =>
      match hR : c.isR with
      | true =>
        simp [sepMarginal, hc, hR] at h
        obtain ⟨hv, hch, hn⟩ := h
        exact ⟨_, _, hch.symm, by simp [← hv]⟩
      | false =>
        match hrec : sepMarginal elimFn rest with
        | .error e => simp [sepMarginal, hc, hR, hrec] at h
        | .ok (pS, rest', m) =>
          match rest' with
          | [] => simp [sepMarginal, hc, hR, hrec] at h
          | p :: rest'' =>
            match hpc : p.conditional, hcc : c.conditional with
            | some pc, some cc =>
              simp [sepMarginal, hc, hR, hrec, hpc, hcc] at h
              obtain ⟨hv, hch, hn⟩ := h
              exact ⟨_, _, hch.symm, by simp [hv]⟩
            | some pc, none => simp [sepMarginal, hc, hR, hrec, hpc, hcc] at h
            | none, some cc => simp [sepMarginal, hc, hR, hrec, hpc, hcc] at h
            | none, none => simp [sepMarginal, hc, hR, hrec, hpc, hcc] at h

/-- C2: the separator-marginal query for `(R, R)` — the head node carries
`isR = true`, and in any state this code can itself produce the reference
clique's cache is absent or the empty collection — returns the empty
factor collection with zero invocations of the elimination capability:
the root case short-circuits before any elimination. -/
theorem sepMarginal_root_trivial (elimFn : List Factor → List Key → List Factor)
    (c : SMNode) (rest : List SMNode) (hR : c.isR = true)
    (hc : c.cache = none ∨ c.cache = some []) :
    sepMarginal elimFn (c :: rest) = .ok ([], { c with cache := some [] } :: rest, 0) := by
  rcases hc with hc | hc
  · simp [sepMarginal, hc, hR]
  · have : { c with cache := some [] } = c := by
      cases c
      simp_all
    rw [this]
    exact sepMarginal_cache_hit elimFn c rest [] hc

theorem sepMarginal_root_trivial_witness :
    sepMarginal (fun fs _ => fs) [⟨some ⟨[0], [], 3⟩, none, true⟩] =
      .ok ([], [⟨some ⟨[0], [], 3⟩, some [], true⟩], 0) :=
  sepMarginal_root_trivial (fun fs _ => fs) ⟨some ⟨[0], [], 3⟩, none, true⟩ []
    rfl (Or.inl rfl)

/-- C3: the query is idempotent per cache epoch — a cache-hit call
returns the stored value with zero eliminations and leaves every node of
the chain unchanged, and after any successful call, repeating the query on
the resulting state returns the same value, performs zero eliminations and
changes no state, so both calls return equal results. -/
theorem sepMarginal_idempotent (elimFn : List Factor → List Key → List Factor)
    (chain : List SMNode) (v : List Factor) (chain' : List SMNode) (n : Nat) :
    (∀ (c : SMNode) (rest : List SMNode) (w : List Factor), c.cache = some w →
        sepMarginal elimFn (c :: rest) = .ok (w, c :: rest, 0))
    ∧ (sepMarginal elimFn chain = .ok (v, chain', n) →
        sepMarginal elimFn chain' = .ok (v, chain', 0)) := by
  constructor
  · exact fun c rest w h => sepMarginal_cache_hit elimFn c rest w h
  · intro h
    obtain ⟨c', rest', hch, hc⟩ := sepMarginal_head_cache elimFn chain v chain' n h
    rw [hch]
    exact sepMarginal_cache_hit elimFn c' rest' v hc

theorem sepMarginal_miss_step (elimFn : List Factor → List Key → List Factor)
    (c p : SMNode) (rest rest'' : List SMNode) (pS : List Factor) (n : Nat)
    (pc cc : Conditional)
    (hc : c.cache = none) (hcR : c.isR = false)
    (hrec : sepMarginal elimFn rest = .ok (pS, p :: rest'', n))
    (hpc : p.conditional = some pc) (hcc : c.conditional = some cc) :
    sepMarginal elimFn (c :: rest) =
      .ok (elimFn (pS ++ [pc.toFactor]) cc.parents,
        { c with cache := some (elimFn (pS ++ [pc.toFactor]) cc.parents) } :: p :: rest'',
        n + 1) := by
  simp [sepMarginal, hc, hcR, hrec, hpc, hcc]

theorem sepMarginal_miss_root (elimFn : List Factor → List Key → List Factor)
    (c : SMNode) (rest : List SMNode) (hc : c.cache = none) (hR : c.isR = true) :
    sepMarginal elimFn (c :: rest) = .ok ([], { c with cache := some [] } :: rest, 0) := by
  simp [sepMarginal, hc, hR]

theorem sepMarginal_path_master (elimFn : List Factor → List Key → List Factor) :
    ∀ (pre : List SMNode) (r : SMNode) (post : List SMNode),
      (∀ x ∈ pre, x.isR = false) → (∀ x ∈ pre, x.conditional.isSome = true) →
      r.isR = true → r.conditional.isSome = true →
      chainClosed (pre ++ [r]) = true →
      ∃ v n pre2 r2,
        sepMarginal elimFn (pre ++ r :: post) = .ok (v, pre2 ++ r2 :: post, n)
        ∧ pre2.length = pre.length
        ∧ pre2.map (fun x => (x.conditional, x.isR))
            = pre.map (fun x => (x.conditional, x.isR))
        ∧ (∀ x ∈ pre2, x.cache.isSome = true)
        ∧ r2.cache.isSome = true ∧ r2.conditional = r.conditional ∧ r2.isR = r.isR := by
  intro pre
  induction pre with
  | nil =>
    intro r post _ _ hr hrc _
    match hc : r.cache with
    | some w =>
      refine ⟨w, 0, [], r, ?_, rfl, rfl, by simp, by simp [hc], rfl, rfl⟩
      simpa using sepMarginal_cache_hit elimFn r post w hc
    | none =>
      refine ⟨[], 0, [], { r with cache := some [] }, ?_, rfl, rfl, by simp, by simp,
        rfl, rfl⟩
      simpa using sepMarginal_miss_root elimFn r post hc hr
  | cons c pre' ih =>
    intro r post hpreR hpreC hr hrc hclosed
    have hcR : c.isR = false := hpreR c (by simp)
    have hcC : c.conditional.isSome = true := hpreC c (by simp)
    have hpre'R : ∀ x ∈ pre', x.isR = false := fun x hx => hpreR x (by simp [hx])
    have hpre'C : ∀ x ∈ pre', x.conditional.isSome = true :=
      fun x hx => hpreC x (by simp [hx])
    simp only [List.cons_append, chainClosed, Bool.and_eq_true] at hclosed
    obtain ⟨hclosed1, hclosed2⟩ := hclosed
    match hc : c.cache with
    | some w =>
      have hmem : ∀ x ∈ pre' ++ [r], x.cache.isSome = true := by
        rw [hc] at hclosed1
        simp at hclosed1
        intro x hx
        rcases List.mem_append.mp hx with h | h
        · exact hclosed1.1 x h
        · simp at h
          subst h
          exact hclosed1.2
      refine ⟨w, 0, c :: pre', r, ?_, rfl, rfl, ?_, hmem r (by simp), rfl, rfl⟩
      · simpa using sepMarginal_cache_hit elimFn c (pre' ++ r :: post) w hc
      · intro x hx
        rcases List.mem_cons.mp hx with h | h
        · subst h; simp [hc]
        · exact hmem x (by simp [h])
    | none =>
      obtain ⟨pS, n', pre2', r2', hrec, hlen, hmap, hcache2, hr2c, hr2cond, hr2R⟩ :=
        ih r post hpre'R hpre'C hr hrc hclosed2
      obtain ⟨cc, hcc⟩ := Option.isSome_iff_exists.mp hcC
      cases pre2' with
      | nil =>
        have hpre'nil : pre' = [] := List.length_eq_zero.mp hlen.symm
        obtain ⟨pc, hpc⟩ := Option.isSome_iff_exists.mp (hr2cond ▸ hrc)
        have hstep := sepMarginal_miss_step elimFn c r2' (pre' ++ r :: post) post pS n'
          pc cc hc hcR (by simpa using hrec) hpc hcc
        refine ⟨_, n' + 1, [{ c with cache := some (elimFn (pS ++ [pc.toFactor]) cc.parents) }],
          r2', by simpa using hstep, by simp [hpre'nil], by simp [hpre'nil], ?_,
          hr2c, hr2cond, hr2R⟩
        intro x hx
        simp at hx
        subst hx
        simp
      | cons p pre2'' =>
        cases pre' with
        | nil => simp at hmap
        | cons q pre''' =>
          simp only [List.map_cons, List.cons.injEq, Prod.mk.injEq] at hmap
          obtain ⟨⟨hpq1, hpq2⟩, hmaptail⟩ := hmap
          have hqC : q.conditional.isSome = true := hpre'C q (by simp)
          obtain ⟨pc, hpc⟩ := Option.isSome_iff_exists.mp (hpq1 ▸ hqC)
          have hstep := sepMarginal_miss_step elimFn c p ((q :: pre''') ++ r :: post)
            (pre2'' ++ r2' :: post) pS n' pc cc hc hcR (by simpa using hrec) hpc hcc
          refine ⟨_, n' + 1,
            { c with cache := some (elimFn (pS ++ [pc.toFactor]) cc.parents) } :: p :: pre2'',
            r2', by simpa using hstep, ?_, ?_, ?_, hr2c, hr2cond, hr2R⟩
          · simp at hlen ⊢
            omega
          · simp [hpq1, hpq2, hmaptail]
          · intro x hx
            rcases List.mem_cons.mp hx with h | h
            · subst h; simp
            · exact hcache2 x h

/-- C1: a query for `(C, R)` (`R` an ancestor of `C`) starting from a
cache miss at `C` succeeds, writes the computed marginal into `C`'s
`cachedSeparatorMarginal`, and via the recursive call into the parent
leaves every clique on the path from `C` up to `R` (exclusive of `R`, and
in fact `R` as well) with a populated cache.  The chain hypotheses state
well-formedness (no intermediate node is `R`, conditionals are present)
and the reachable-state closure invariant on the intermediate caches. -/
theorem sepMarginal_populates_path (elimFn : List Factor → List Key → List Factor)
    (c : SMNode) (mid : List SMNode) (r : SMNode) (post : List SMNode)
    (hmiss : c.cache = none) (hcR : c.isR = false) (hcC : c.conditional.isSome = true)
    (hmidR : ∀ x ∈ mid, x.isR = false) (hmidC : ∀ x ∈ mid, x.conditional.isSome = true)
    (hr : r.isR = true) (hrc : r.conditional.isSome = true)
    (hclosed : chainClosed (mid ++ [r]) = true) :
    ∃ v n c2 mid2 r2,
      sepMarginal elimFn (c :: mid ++ r :: post) = .ok (v, c2 :: mid2 ++ r2 :: post, n)
      ∧ c2.cache = some v
      ∧ (∀ x ∈ mid2, x.cache.isSome = true)
      ∧ r2.cache.isSome = true
      ∧ mid2.length = mid.length := by
  have hclosedc : chainClosed ((c :: mid) ++ [r]) = true := by
    simp only [List.cons_append, chainClosed, Bool.and_eq_true]
    exact ⟨by simp [hmiss], hclosed⟩
  obtain ⟨v, n, pre2, r2, heq, hlen, hmap, hcaches, hr2c, _, _⟩ :=
    sepMarginal_path_master elimFn (c :: mid) r post
      (by
        intro x hx
        rcases List.mem_cons.mp hx with h | h
        · subst h; exact hcR
        · exact hmidR x h)
      (by
        intro x hx
        rcases List.mem_cons.mp hx with h | h
        · subst h; exact hcC
        · exact hmidC x h)
      hr hrc hclosedc
  cases pre2 with
  | nil => simp at hlen
  | cons c2 mid2 =>
    obtain ⟨c', rest', hch, hcache⟩ := sepMarginal_head_cache elimFn _ v _ n heq
    have hc2 : c2 = c' := by
      have := hch
      simp only [List.cons_append, List.cons.injEq] at this
      exact this.1
    refine ⟨v, n, c2, mid2, r2, by simpa using heq, ?_, ?_, hr2c, by simpa using hlen⟩
    · rw [hc2]
      exact hcache
    · intro x hx
      exact hcaches x (by simp [hx])

theorem sepMarginal_populates_path_witness :
    ∃ (v : List Factor) (n : Nat) (c2 : SMNode) (mid2 : List SMNode) (r2 : SMNode),
      sepMarginal (fun fs _ => fs)
          ((⟨some ⟨[0], [1], 1⟩, none, false⟩ : SMNode) ::
            ([⟨some ⟨[1], [2], 2⟩, none, false⟩] : List SMNode) ++
              (⟨some ⟨[2], [], 3⟩, none, true⟩ : SMNode) :: [])
        = .ok (v, c2 :: mid2 ++ r2 :: [], n)
      ∧ c2.cache = some v
      ∧ (∀ x ∈ mid2, x.cache.isSome = true)
      ∧ r2.cache.isSome = true
      ∧ mid2.length = ([⟨some ⟨[1], [2], 2⟩, none, false⟩] : List SMNode).length :=
  sepMarginal_populates_path (fun fs _ => fs)
    ⟨some ⟨[0], [1], 1⟩, none, false⟩ [⟨some ⟨[1], [2], 2⟩, none, false⟩]
    ⟨some ⟨[2], [], 3⟩, none, true⟩ [] rfl rfl rfl (by decide) (by decide) rfl rfl
    (by decide)

theorem sepMarginal_idempotent_witness :
    sepMarginal (fun fs _ => fs)
        [⟨some ⟨[0], [1], 5⟩, some [⟨[1], 7⟩], false⟩, ⟨some ⟨[1], [], 7⟩, some [], true⟩]
      = .ok ([⟨[1], 7⟩],
          [⟨some ⟨[0], [1], 5⟩, some [⟨[1], 7⟩], false⟩, ⟨some ⟨[1], [], 7⟩, some [], true⟩],
          0) :=
  (sepMarginal_idempotent (fun fs _ => fs)
      [⟨some ⟨[0], [1], 5⟩, none, false⟩, ⟨some ⟨[1], [], 7⟩, none, true⟩]
      [⟨[1], 7⟩]
      [⟨some ⟨[0], [1], 5⟩, some [⟨[1], 7⟩], false⟩, ⟨some ⟨[1], [], 7⟩, some [], true⟩]
      1).2 rfl

/-- C6 counterexample: a non-root clique (`isR = false`) whose parent
chain is exhausted (absent/expired `parent_`) makes the query dereference
the null result of `parent_.lock()` — undefined behavior, modelled as
`CErr.nullDeref` — and not the descriptive malformed-tree error the claim
requires. -/
theorem sepMarginal_no_parent_cex :
    sepMarginal (fun fs _ => fs) [⟨some ⟨[0], [1], 1⟩, none, false⟩]
        = .error CErr.nullDeref
    ∧ sepMarginal (fun fs _ => fs) [⟨some ⟨[0], [1], 1⟩, none, false⟩]
        ≠ .error CErr.malformedTree := by
  have heq : sepMarginal (fun fs _ => fs) [⟨some ⟨[0], [1], 1⟩, none, false⟩]
      = (.error CErr.nullDeref : Except CErr (List Factor × List SMNode × Nat)) := rfl
  refine ⟨heq, ?_⟩
  rw [heq]
  intro h
  injection h with h2
  exact CErr.noConfusion h2

/-- C6 amended: for a cache-missing clique that is not `R` and has no
parent, the query performs no validity check and dereferences the null
parent pointer (undefined behavior in the source) rather than failing fast
with a descriptive structural error. -/
theorem sepMarginal_no_parent_deref (elimFn : List Factor → List Key → List Factor)
    (c : SMNode) (hR : c.isR = false) (hc : c.cache = none) :
    sepMarginal elimFn [c] = .error CErr.nullDeref := by
  simp [sepMarginal, hc, hR]

theorem sepMarginal_no_parent_deref_witness :
    sepMarginal (fun fs _ => fs) [⟨some ⟨[5], [6], 2⟩, none, false⟩]
        = .error CErr.nullDeref :=
  sepMarginal_no_parent_deref (fun fs _ => fs) ⟨some ⟨[5], [6], 2⟩, none, false⟩ rfl rfl
